import Mathlib

/-!
# Verification of the liath-rs core against its specification

Shallow embedding of the liath-rs core (authorization manager, namespace
manager, query executor bindings, value marshaling, static validator) and
proofs about the embedded definitions.

Rust `HashMap`/`BTreeMap`/`HashSet` values are modeled as association lists
whose observable behavior (lookup / membership) matches the originals; where
an iteration order matters to a theorem, tables are kept in a canonical
sorted order, which is the order `BTreeMap` iteration actually produces and a
legitimate canonical representative of the unordered `HashMap` iteration.
-/

namespace Liath

/-! ## Association-list map and set primitives

These model `HashMap` insert/lookup and `HashSet` insert/remove/contains. -/

/-- `HashMap::insert`: replace the binding for `k` if present, else add it. -/
def mapInsert {α : Type} (m : List (String × α)) (k : String) (v : α) : List (String × α) :=
  match m with
  | [] => [(k, v)]
  | (k', v') :: rest => if k' = k then (k, v) :: rest else (k', v') :: mapInsert rest k v

/-- `HashMap::get`: first binding for `k`, if any. -/
def mapLookup {α : Type} (m : List (String × α)) (k : String) : Option α :=
  match m with
  | [] => none
  | (k', v') :: rest => if k' = k then some v' else mapLookup rest k

/-- A `HashSet<String>`, modeled by its member list (no duplicates added). -/
abbrev PermSet := List String

/-- `HashSet::insert`. -/
def setInsert (s : PermSet) (p : String) : PermSet :=
  if s.contains p then s else p :: s

/-- `HashSet::remove` (drops every occurrence). -/
def setRemove (s : PermSet) (p : String) : PermSet :=
  s.filter (fun q => q ≠ p)

/-- `Vec<String>::into_iter().collect::<HashSet<_>>()`. -/
def collectSet (l : List String) : PermSet :=
  l.foldl setInsert []

theorem contains_true_iff (l : List String) (q : String) : l.contains q = true ↔ q ∈ l :=
  List.elem_iff

theorem contains_eq_decide (l : List String) (q : String) : l.contains q = decide (q ∈ l) := by
  by_cases h : q ∈ l
  · rw [(contains_true_iff l q).2 h, decide_eq_true h]
  · rw [decide_eq_false h]
    exact Bool.eq_false_iff.mpr (fun hc => h ((contains_true_iff l q).1 hc))

theorem mapLookup_mapInsert_self {α : Type} (m : List (String × α)) (k : String) (v : α) :
    mapLookup (mapInsert m k v) k = some v := by
  induction m with
  | nil => simp [mapInsert, mapLookup]
  | cons hd tl ih =>
    by_cases h : hd.1 = k
    · simp [mapInsert, mapLookup, h]
    · simp [mapInsert, mapLookup, h, ih]

theorem mapLookup_mapInsert_ne {α : Type} (m : List (String × α)) (k k' : String) (v : α)
    (h : k' ≠ k) : mapLookup (mapInsert m k v) k' = mapLookup m k' := by
  induction m with
  | nil => simp [mapInsert, mapLookup, Ne.symm h]
  | cons hd tl ih =>
    obtain ⟨hk, hv⟩ := hd
    by_cases hhd : hk = k
    · subst hhd
      simp only [mapInsert, if_pos rfl, mapLookup]
      rw [if_neg (Ne.symm h), if_neg (Ne.symm h)]
    · by_cases hk' : hk = k'
      · simp only [mapInsert, if_neg hhd, mapLookup, if_pos hk']
      · simp only [mapInsert, if_neg hhd, mapLookup, if_neg hk', ih]

theorem setInsert_mem (s : PermSet) (p q : String) : q ∈ setInsert s p ↔ (q ∈ s ∨ q = p) := by
  unfold setInsert
  by_cases h : s.contains p
  · rw [if_pos h]
    have hp : p ∈ s := (contains_true_iff s p).1 h
    constructor
    · exact Or.inl
    · rintro (hq | rfl)
      · exact hq
      · exact hp
  · rw [if_neg h]
    simp [List.mem_cons, or_comm]

theorem collectSet_mem (l : List String) (q : String) : q ∈ collectSet l ↔ q ∈ l := by
  have general : ∀ (xs : List String) (s : PermSet),
      q ∈ xs.foldl setInsert s ↔ (q ∈ s ∨ q ∈ xs) := by
    intro xs
    induction xs with
    | nil => intro s; simp
    | cons hd tl ih =>
      intro s
      rw [List.foldl_cons, ih, setInsert_mem]
      simp [or_assoc]
  unfold collectSet
  rw [general]
  simp

theorem setRemove_not_mem (s : PermSet) (p : String) : p ∉ setRemove s p := by
  unfold setRemove
  intro hm
  have := (List.mem_filter.1 hm).2
  simp at this

/-! ## AuthManager (src/auth/manager.rs)

`AuthManager` holds `user_permissions: HashMap<String, HashSet<String>>`.
The optional persistence store only mirrors the in-memory map (writes are
logged-and-ignored or propagated without changing the map); permission
queries never consult it, so the embedding models the in-memory map. -/

structure AuthManager where
  user_permissions : List (String × PermSet)
deriving DecidableEq

/-- `AuthManager::new`. -/
def AuthManager.new : AuthManager := ⟨[]⟩

/-- `AuthManager::add_user`: unconditionally insert (replacing any existing
entry); the function is infallible (persistence failure is only logged). -/
def AuthManager.add_user (a : AuthManager) (user_id : String) (permissions : List String) :
    AuthManager :=
  ⟨mapInsert a.user_permissions user_id (collectSet permissions)⟩

/-- `AuthManager::is_authorized`: pure membership, `false` for unknown users. -/
def AuthManager.is_authorized (a : AuthManager) (user_id permission : String) : Bool :=
  match mapLookup a.user_permissions user_id with
  | none => false
  | some perms => perms.contains permission

/-- `AuthManager::update_permissions`: error if the user is unknown, else
clear the set and extend it with the given permissions (a full replace). -/
def AuthManager.update_permissions (a : AuthManager) (user_id : String)
    (permissions : List String) : Except String AuthManager :=
  match mapLookup a.user_permissions user_id with
  | none => .error "User not found"
  | some _ => .ok ⟨mapInsert a.user_permissions user_id (collectSet permissions)⟩

/-- `AuthManager::add_permission`: error if the user is unknown, else insert
into the existing set. -/
def AuthManager.add_permission (a : AuthManager) (user_id permission : String) :
    Except String AuthManager :=
  match mapLookup a.user_permissions user_id with
  | none => .error "User not found"
  | some perms => .ok ⟨mapInsert a.user_permissions user_id (setInsert perms permission)⟩

/-- `AuthManager::remove_permission`: error if the user is unknown, else
remove from the existing set. -/
def AuthManager.remove_permission (a : AuthManager) (user_id permission : String) :
    Except String AuthManager :=
  match mapLookup a.user_permissions user_id with
  | none => .error "User not found"
  | some perms => .ok ⟨mapInsert a.user_permissions user_id (setRemove perms permission)⟩

/-- C5 -- `is_authorized` is false for any never-added principal;
`add_permission` then `remove_permission` restores `is_authorized` to false
(when the permission was not previously held); `update_permissions` fully
replaces the prior permission set. -/
theorem auth_default_deny_and_replace :
    (∀ (a : AuthManager) (u p : String),
      mapLookup a.user_permissions u = none → a.is_authorized u p = false)
    ∧ (∀ (a a1 a2 : AuthManager) (u p : String) (perms : PermSet),
      mapLookup a.user_permissions u = some perms → perms.contains p = false →
      a.add_permission u p = .ok a1 → a1.remove_permission u p = .ok a2 →
      a2.is_authorized u p = false)
    ∧ (∀ (a a' : AuthManager) (u : String) (newPerms : List String),
      a.update_permissions u newPerms = .ok a' →
      ∀ q, a'.is_authorized u q = newPerms.contains q) := by
  refine ⟨?_, ?_, ?_⟩
  · intro a u p h
    simp [AuthManager.is_authorized, h]
  · intro a a1 a2 u p perms hlook _hnotin hadd hrem
    simp only [AuthManager.add_permission, hlook] at hadd
    cases hadd
    simp only [AuthManager.remove_permission, mapLookup_mapInsert_self] at hrem
    cases hrem
    simp only [AuthManager.is_authorized, mapLookup_mapInsert_self]
    rw [contains_eq_decide]
    exact decide_eq_false (setRemove_not_mem _ p)
  · intro a a' u newPerms hupd q
    unfold AuthManager.update_permissions at hupd
    cases hlook : mapLookup a.user_permissions u with
    | none => rw [hlook] at hupd; cases hupd
    | some perms =>
      rw [hlook] at hupd
      cases hupd
      simp only [AuthManager.is_authorized, mapLookup_mapInsert_self]
      rw [contains_eq_decide, contains_eq_decide]
      exact decide_eq_decide.mpr (collectSet_mem newPerms q)

/-- Witness for C5 at concrete managers. -/
theorem auth_default_deny_and_replace_witness :
    AuthManager.new.is_authorized "alice" "select" = false
    ∧ (AuthManager.mk [("bob", ["b", "a"])]).is_authorized "bob" "a" = ["a", "b"].contains "a" := by
  constructor
  · exact auth_default_deny_and_replace.1 AuthManager.new "alice" "select" rfl
  · exact auth_default_deny_and_replace.2.2 (AuthManager.mk [("bob", ["old"])])
      (AuthManager.mk [("bob", ["b", "a"])]) "bob" ["a", "b"] rfl "a"

/-- C10 -- `add_user` on an existing id succeeds (it is infallible) and
silently replaces the entire prior permission set. -/
theorem add_user_replaces_existing :
    ∀ (a : AuthManager) (u : String) (newPerms : List String),
      (mapLookup a.user_permissions u).isSome →
      ∀ p, (a.add_user u newPerms).is_authorized u p = newPerms.contains p := by
  intro a u newPerms _hexists p
  simp only [AuthManager.add_user, AuthManager.is_authorized, mapLookup_mapInsert_self]
  rw [contains_eq_decide, contains_eq_decide]
  exact decide_eq_decide.mpr (collectSet_mem newPerms p)

/-- Witness for C10: a user first added with `select` only, re-added with
`insert` only, now holds exactly `insert`. -/
theorem add_user_replaces_existing_witness :
    ((AuthManager.mk [("u", ["select"])]).add_user "u" ["insert"]).is_authorized
        "u" "insert" = ["insert"].contains "insert"
    ∧ ((AuthManager.mk [("u", ["select"])]).add_user "u" ["insert"]).is_authorized
        "u" "select" = ["insert"].contains "select" := by
  constructor
  · exact add_user_replaces_existing (AuthManager.mk [("u", ["select"])]) "u"
      ["insert"] (by decide) "insert"
  · exact add_user_replaces_existing (AuthManager.mk [("u", ["select"])]) "u"
      ["insert"] (by decide) "select"

/-! ## NamespaceManager (src/core/namespace.rs)

On-disk side effects (directory creation, Fjall keyspace opening, vector
snapshot files) are external collaborators; the embedding keeps the
in-memory namespace table and the metadata store's record contents, which is
what the claims are about. A fresh key-value handle is the empty store and a
fresh vector-index handle is recorded by the shape it was created with. -/

inductive MetricKind where
  | cos
  | l2sq
deriving DecidableEq, Repr

inductive ScalarKind where
  | f32
  | f16
deriving DecidableEq, Repr

/-- `NamespaceMetadata`: the persisted namespace config record. -/
structure NamespaceMetadata where
  name : String
  dimensions : Nat
  metric : String
  scalar : String
deriving DecidableEq, Repr

/-- The shape a `UsearchWrapper::new(dimensions, metric, scalar)` handle is
created with (the index math itself is an external collaborator). -/
structure VectorIndexHandle where
  dimensions : Nat
  metric : MetricKind
  scalar : ScalarKind
deriving DecidableEq, Repr

/-- A key-value store handle (`FjallWrapper`), modeled by its contents. -/
abbrev KvStore := List (String × String)

/-- `Namespace`: one key-value handle paired with one vector-index handle. -/
structure Namespace where
  db : KvStore
  vector_db : VectorIndexHandle
deriving DecidableEq, Repr

structure NamespaceManager where
  namespaces : List (String × Namespace)
  metadata_db : List (String × NamespaceMetadata)
deriving DecidableEq, Repr

/-- `NamespaceManager::parse_metric`. -/
def parse_metric (s : String) : Except String MetricKind :=
  if s = "cosine" ∨ s = "Cos" then .ok .cos
  else if s = "euclidean" ∨ s = "L2sq" then .ok .l2sq
  else .error ("Unknown metric kind: " ++ s)

/-- `NamespaceManager::parse_scalar`. -/
def parse_scalar (s : String) : Except String ScalarKind :=
  if s = "f32" ∨ s = "F32" then .ok .f32
  else if s = "f16" ∨ s = "F16" then .ok .f16
  else .error ("Unknown scalar kind: " ++ s)

/-- `NamespaceManager::metric_to_string`. -/
def metric_to_string : MetricKind → String
  | .cos => "cosine"
  | .l2sq => "euclidean"

/-- `NamespaceManager::scalar_to_string`. -/
def scalar_to_string : ScalarKind → String
  | .f32 => "f32"
  | .f16 => "f16"

/-- `NamespaceManager::create_namespace`. Returns the call's `Result`
together with the manager state after the call (which is unchanged when the
name is already taken, because the function returns before any mutation). -/
def NamespaceManager.create_namespace (m : NamespaceManager) (name : String)
    (dimensions : Nat) (metric : MetricKind) (scalar : ScalarKind) :
    Except String Unit × NamespaceManager :=
  if (mapLookup m.namespaces name).isSome then
    (.error ("Namespace '" ++ name ++ "' already exists"), m)
  else
    let metadata : NamespaceMetadata :=
      ⟨name, dimensions, metric_to_string metric, scalar_to_string scalar⟩
    let ns : Namespace := ⟨[], ⟨dimensions, metric, scalar⟩⟩
    (.ok (), ⟨mapInsert m.namespaces name ns, mapInsert m.metadata_db name metadata⟩)

/-- `NamespaceManager::get_namespace`. -/
def NamespaceManager.get_namespace (m : NamespaceManager) (name : String) :
    Except String Namespace :=
  match mapLookup m.namespaces name with
  | some ns => .ok ns
  | none => .error ("Namespace '" ++ name ++ "' not found")

/-- `NamespaceManager::namespace_exists`. -/
def NamespaceManager.namespace_exists (m : NamespaceManager) (name : String) : Bool :=
  (mapLookup m.namespaces name).isSome

/-- `NamespaceManager::load_existing`, over the list of persisted config
records. Modelled from the spec for the record iteration itself:
`FjallWrapper::iter` (called on the metadata store) is not part of the
provided sources, and the spec says startup recovery iterates every
persisted config record. Each record's metric/scalar string is parsed with
the strict parsers; a parse failure propagates (`?`) and aborts loading. -/
def load_existing : List (String × NamespaceMetadata) →
    Except String (List (String × Namespace))
  | [] => .ok []
  | (name, md) :: rest => do
    let metric ← parse_metric md.metric
    let scalar ← parse_scalar md.scalar
    let tail ← load_existing rest
    .ok ((name, ⟨[], ⟨md.dimensions, metric, scalar⟩⟩) :: tail)

theorem create_namespace_taken (m : NamespaceManager) (name : String) (d : Nat)
    (met : MetricKind) (sc : ScalarKind) (h : (mapLookup m.namespaces name).isSome = true) :
    m.create_namespace name d met sc
      = (.error ("Namespace '" ++ name ++ "' already exists"), m) := by
  unfold NamespaceManager.create_namespace
  rw [if_pos h]

/-- C6 -- a successful `create_namespace(name, d, m, s)` registers a
namespace whose handles carry exactly `d`, `m`, `s` and persists the exact
config record; a second `create_namespace` with the same name fails with an
error and leaves the manager (registration and configuration) unchanged. -/
theorem create_namespace_exact_and_no_overwrite :
    ∀ (m : NamespaceManager) (name : String) (d : Nat) (met : MetricKind) (sc : ScalarKind),
      mapLookup m.namespaces name = none →
      (m.create_namespace name d met sc).1 = .ok ()
      ∧ ((m.create_namespace name d met sc).2).get_namespace name = .ok ⟨[], ⟨d, met, sc⟩⟩
      ∧ mapLookup ((m.create_namespace name d met sc).2).metadata_db name
          = some ⟨name, d, metric_to_string met, scalar_to_string sc⟩
      ∧ ∀ (d2 : Nat) (met2 : MetricKind) (sc2 : ScalarKind),
          (((m.create_namespace name d met sc).2).create_namespace name d2 met2 sc2).1
            = .error ("Namespace '" ++ name ++ "' already exists")
          ∧ (((m.create_namespace name d met sc).2).create_namespace name d2 met2 sc2).2
            = (m.create_namespace name d met sc).2 := by
  intro m name d met sc habsent
  have hfirst : m.create_namespace name d met sc =
      (.ok (), ⟨mapInsert m.namespaces name ⟨[], ⟨d, met, sc⟩⟩,
        mapInsert m.metadata_db name ⟨name, d, metric_to_string met, scalar_to_string sc⟩⟩) := by
    unfold NamespaceManager.create_namespace
    rw [if_neg (by simp [habsent])]
  refine ⟨by rw [hfirst], ?_, ?_, ?_⟩
  · rw [hfirst]
    simp [NamespaceManager.get_namespace, mapLookup_mapInsert_self]
  · rw [hfirst]
    simp [mapLookup_mapInsert_self]
  · intro d2 met2 sc2
    have htaken : mapLookup ((m.create_namespace name d met sc).2).namespaces name
        = some ⟨[], ⟨d, met, sc⟩⟩ := by
      rw [hfirst]
      exact mapLookup_mapInsert_self _ _ _
    have hsecond := create_namespace_taken ((m.create_namespace name d met sc).2) name d2 met2
      sc2 (by rw [htaken]; rfl)
    exact ⟨by rw [hsecond], by rw [hsecond]⟩

/-- Witness for C6 at a concrete manager and configuration. -/
theorem create_namespace_exact_and_no_overwrite_witness :
    ((NamespaceManager.mk [] []).create_namespace "docs" 3 .cos .f32).1 = .ok ()
    ∧ (((NamespaceManager.mk [] []).create_namespace "docs" 3 .cos .f32).2).get_namespace "docs"
        = .ok ⟨[], ⟨3, .cos, .f32⟩⟩
    ∧ ((((NamespaceManager.mk [] []).create_namespace "docs" 3 .cos .f32).2).create_namespace
        "docs" 5 .l2sq .f16).1 = .error "Namespace 'docs' already exists" := by
  have h := create_namespace_exact_and_no_overwrite (NamespaceManager.mk [] [])
    "docs" 3 .cos .f32 rfl
  exact ⟨h.1, h.2.1, by
    have := (h.2.2.2 5 .l2sq .f16).1
    simpa using this⟩

/-- C8 -- the persisted config record stores metric/scalar as the exact
strings `"cosine"`/`"euclidean"` and `"f32"`/`"f16"`; parsing the formatted
string of any metric or scalar yields the same value back; the parsers
accept exactly the strings `cosine/Cos/euclidean/L2sq` (resp.
`f32/F32/f16/F16`) and error on anything else; and loading a set of records
containing an unrecognized metric or scalar string fails with an error
instead of defaulting. -/
theorem config_record_strict_strings :
    (∀ met : MetricKind, parse_metric (metric_to_string met) = .ok met)
    ∧ (∀ sc : ScalarKind, parse_scalar (scalar_to_string sc) = .ok sc)
    ∧ (∀ met : MetricKind, metric_to_string met = "cosine" ∨ metric_to_string met = "euclidean")
    ∧ (∀ sc : ScalarKind, scalar_to_string sc = "f32" ∨ scalar_to_string sc = "f16")
    ∧ (∀ s : String, (∃ e, parse_metric s = .error e) ↔
        s ∉ (["cosine", "Cos", "euclidean", "L2sq"] : List String))
    ∧ (∀ s : String, (∃ e, parse_scalar s = .error e) ↔
        s ∉ (["f32", "F32", "f16", "F16"] : List String))
    ∧ (∀ (recs : List (String × NamespaceMetadata)) (name : String) (md : NamespaceMetadata),
        (name, md) ∈ recs →
        ((∃ e, parse_metric md.metric = .error e) ∨ (∃ e, parse_scalar md.scalar = .error e)) →
        ∃ e, load_existing recs = .error e) := by
  refine ⟨?_, ?_, ?_, ?_, ?_, ?_, ?_⟩
  · intro met; cases met <;> rfl
  · intro sc; cases sc <;> rfl
  · intro met; cases met
    · exact Or.inl rfl
    · exact Or.inr rfl
  · intro sc; cases sc
    · exact Or.inl rfl
    · exact Or.inr rfl
  · intro s
    unfold parse_metric
    by_cases h1 : s = "cosine" ∨ s = "Cos"
    · rw [if_pos h1]
      constructor
      · rintro ⟨e, he⟩; cases he
      · intro hn
        exact absurd (by rcases h1 with h | h <;> simp [h]) hn
    · rw [if_neg h1]
      by_cases h2 : s = "euclidean" ∨ s = "L2sq"
      · rw [if_pos h2]
        constructor
        · rintro ⟨e, he⟩; cases he
        · intro hn
          exact absurd (by rcases h2 with h | h <;> simp [h]) hn
      · rw [if_neg h2]
        constructor
        · intro _
          simp only [List.mem_cons, List.not_mem_nil, or_false]
          push_neg
          push_neg at h1 h2
          exact ⟨h1.1, h1.2, h2.1, h2.2⟩
        · intro _
          exact ⟨_, rfl⟩
  · intro s
    unfold parse_scalar
    by_cases h1 : s = "f32" ∨ s = "F32"
    · rw [if_pos h1]
      constructor
      · rintro ⟨e, he⟩; cases he
      · intro hn
        exact absurd (by rcases h1 with h | h <;> simp [h]) hn
    · rw [if_neg h1]
      by_cases h2 : s = "f16" ∨ s = "F16"
      · rw [if_pos h2]
        constructor
        · rintro ⟨e, he⟩; cases he
        · intro hn
          exact absurd (by rcases h2 with h | h <;> simp [h]) hn
      · rw [if_neg h2]
        constructor
        · intro _
          simp only [List.mem_cons, List.not_mem_nil, or_false]
          push_neg
          push_neg at h1 h2
          exact ⟨h1.1, h1.2, h2.1, h2.2⟩
        · intro _
          exact ⟨_, rfl⟩
  · intro recs
    induction recs with
    | nil =>
      intro name md hmem _
      cases hmem
    | cons hd tl ih =>
      intro name md hmem hbad
      rcases List.mem_cons.1 hmem with heq | htl
      · subst heq
        rcases hbad with ⟨e, he⟩ | ⟨e, he⟩
        · exact ⟨e, by simp only [load_existing]; rw [he]; rfl⟩
        · cases hm : parse_metric md.metric with
          | error em => exact ⟨em, by simp only [load_existing]; rw [hm]; rfl⟩
          | ok mv => exact ⟨e, by simp only [load_existing]; rw [hm, he]; rfl⟩
      · obtain ⟨e, he⟩ := ih name md htl hbad
        obtain ⟨hdname, hdmd⟩ := hd
        cases hm : parse_metric hdmd.metric with
        | error em =>
          exact ⟨em, by simp only [load_existing]; rw [hm]; rfl⟩
        | ok mv =>
          cases hs : parse_scalar hdmd.scalar with
          | error es => exact ⟨es, by simp only [load_existing]; rw [hm, hs]; rfl⟩
          | ok sv => exact ⟨e, by simp only [load_existing]; rw [hm, hs, he]; rfl⟩

/-- Witness for C8: a record set holding one good and one bad record fails
to load. -/
theorem config_record_strict_strings_witness :
    ∃ e, load_existing
      [("good", ⟨"good", 3, "cosine", "f32"⟩), ("bad", ⟨"bad", 3, "dotproduct", "f32"⟩)]
      = .error e := by
  refine config_record_strict_strings.2.2.2.2.2.2
    [("good", ⟨"good", 3, "cosine", "f32"⟩), ("bad", ⟨"bad", 3, "dotproduct", "f32"⟩)]
    "bad" ⟨"bad", 3, "dotproduct", "f32"⟩ (by simp) (Or.inl ?_)
  exact (config_record_strict_strings.2.2.2.2.1 "dotproduct").2 (by decide)

/-! ## QueryExecutor bindings (src/query/executor.rs)

`register_db_functions` binds the host-function catalog into the Lua context
for one `(script, principal)` pair. For each binding we record its global
name and the permission string its closure passes to
`AuthManager::is_authorized` (or `none` when the closure performs no
authorization check at all). A selection of bindings is also embedded
operationally over an executor state. -/

/-- One bound Lua global: its name and the permission its closure checks
before acting (`none` when the closure has no check). Transcribed from
`register_db_functions`, in registration order. -/
structure LuaBinding where
  name : String
  authPerm : Option String
deriving DecidableEq, Repr

/-- The catalog bound by `register_db_functions`, in registration order,
with the permission string each closure passes to `is_authorized`. -/
def register_db_functions : List LuaBinding :=
  [ ⟨"create_namespace", some "create_namespace"⟩,
    ⟨"delete_namespace", some "delete_namespace"⟩,
    ⟨"list_namespaces", some "list_namespaces"⟩,
    ⟨"select", some "select"⟩,
    ⟨"insert", some "insert"⟩,
    ⟨"update", some "update"⟩,
    ⟨"delete", some "delete"⟩,
    ⟨"generate_embedding", some "generate_embedding"⟩,
    ⟨"upload_file", some "upload_file"⟩,
    ⟨"retrieve_file", some "retrieve_file"⟩,
    ⟨"similarity_search", some "similarity_search"⟩,
    ⟨"install_package", some "install_package"⟩,
    ⟨"list_packages", some "list_packages"⟩,
    ⟨"add_vector", some "insert"⟩,
    ⟨"store_document", some "insert"⟩,
    ⟨"semantic_search", some "similarity_search"⟩,
    ⟨"json_encode", none⟩,
    ⟨"json_decode", none⟩,
    ⟨"insert_json", some "insert"⟩,
    ⟨"select_json", some "select"⟩,
    ⟨"save", none⟩,
    ⟨"namespace_exists", none⟩,
    ⟨"uuid", none⟩,
    ⟨"timestamp", none⟩,
    ⟨"sleep", none⟩,
    ⟨"batch_insert", some "insert"⟩,
    ⟨"batch_select", some "select"⟩,
    ⟨"scan", some "select"⟩,
    ⟨"memory_store", some "insert"⟩,
    ⟨"memory_recall", some "select"⟩ ]

/-- The permission mapping stated by the amended claim (spec side, for
comparison against `register_db_functions`): thirteen bindings check their
own name, the bulk data/vector/memory/JSON-storage bindings check the shared
group permission `insert`, `select` or `similarity_search`, and seven
utility bindings perform no check at all. -/
def amendedAuthPerm : String → Option String
  | "add_vector" => some "insert"
  | "store_document" => some "insert"
  | "batch_insert" => some "insert"
  | "insert_json" => some "insert"
  | "memory_store" => some "insert"
  | "batch_select" => some "select"
  | "scan" => some "select"
  | "select_json" => some "select"
  | "memory_recall" => some "select"
  | "semantic_search" => some "similarity_search"
  | "save" => none
  | "namespace_exists" => none
  | "uuid" => none
  | "timestamp" => none
  | "sleep" => none
  | "json_encode" => none
  | "json_decode" => none
  | f => some f

/-- Executor state shared by the bound closures: the namespace manager and
the authorization manager (the embedding/file/Lua-VM collaborators are
external and not consulted by the claims settled here). -/
structure ExecState where
  nsmgr : NamespaceManager
  auth : AuthManager
deriving DecidableEq

/-- The `select` binding: authorization gate, namespace lookup, then
`FjallWrapper::get`, whose `Ok(None)` for a missing key is returned to Lua
as `nil` (`Option::map` over the value, `None` → `LuaValue::Nil`). -/
def luaSelect (st : ExecState) (user namespaceName key : String) :
    Except String (Option String) :=
  if st.auth.is_authorized user "select" = false then
    .error "Unauthorized"
  else
    match st.nsmgr.get_namespace namespaceName with
    | .error e => .error ("Namespace error: " ++ e)
    | .ok ns => .ok (mapLookup ns.db key)

/-- The `insert` binding: authorization gate, namespace lookup, then
`FjallWrapper::put`. Returns the updated executor state. -/
def luaInsert (st : ExecState) (user namespaceName key value : String) :
    Except String ExecState :=
  if st.auth.is_authorized user "insert" = false then
    .error "Unauthorized"
  else
    match st.nsmgr.get_namespace namespaceName with
    | .error e => .error ("Namespace error: " ++ e)
    | .ok ns =>
      .ok ⟨⟨mapInsert st.nsmgr.namespaces namespaceName ⟨mapInsert ns.db key value, ns.vector_db⟩,
        st.nsmgr.metadata_db⟩, st.auth⟩

/-- The `save` binding: **no authorization check**; it calls
`NamespaceManager::save_all` (serializing every namespace's vector index and
flushing the metadata store) and `AuthManager::flush`. The on-disk writes
are abstracted; the returned list names the namespaces whose indices were
serialized, witnessing that storage actions were performed. -/
def luaSave (st : ExecState) (_user : String) : Except String (List String) :=
  .ok (st.nsmgr.namespaces.map (fun p => p.1))

/-- The `namespace_exists` binding: **no authorization check**; it queries
the namespace table directly. -/
def luaNamespaceExists (st : ExecState) (_user name : String) : Except String Bool :=
  .ok (st.nsmgr.namespace_exists name)

/-- C1 counterexample state: one namespace `docs` exists and the principal
`mallory` was never added to the authorization manager. -/
def c1State : ExecState :=
  ⟨⟨[("docs", ⟨[], ⟨3, .cos, .f32⟩⟩)], [("docs", ⟨"docs", 3, "cosine", "f32"⟩)]⟩,
    AuthManager.new⟩

/-- C1 counterexample -- not every bound function checks
`is_authorized(principal, function_name)` before acting: the `save` binding
performs its storage action (flushing every namespace) with no check at all
for a principal holding no permissions whatsoever, and the `add_vector`
binding checks the group permission `"insert"`, not its own name. -/
theorem bound_function_auth_counterexample :
    LuaBinding.mk "save" none ∈ register_db_functions
    ∧ (none : Option String) ≠ some "save"
    ∧ c1State.auth.is_authorized "mallory" "save" = false
    ∧ luaSave c1State "mallory" = .ok ["docs"]
    ∧ LuaBinding.mk "add_vector" (some "insert") ∈ register_db_functions
    ∧ (some "insert" : Option String) ≠ some "add_vector" := by
  refine ⟨by decide, by decide, by decide, by rfl, by decide, by decide⟩

/-- C1 amended -- each data, vector, embedding, file, package and
JSON-storage binding checks a fixed permission before acting (its own name
for thirteen of them, a shared group permission for the rest), raising the
catchable runtime error `"Unauthorized"` on denial before any storage
action; the bindings `save`, `namespace_exists`, `uuid`, `timestamp`,
`sleep`, `json_encode`, `json_decode` perform no check; and the check is
re-evaluated from the current authorization state on every invocation (the
operational bindings below read `is_authorized` afresh each call). -/
theorem bound_function_auth_amended :
    (∀ b ∈ register_db_functions, b.authPerm = amendedAuthPerm b.name)
    ∧ (∀ (st : ExecState) (u ns k : String),
        st.auth.is_authorized u "select" = false →
        luaSelect st u ns k = .error "Unauthorized")
    ∧ (∀ (st : ExecState) (u ns k v : String),
        st.auth.is_authorized u "insert" = false →
        luaInsert st u ns k v = .error "Unauthorized")
    ∧ (∀ (st : ExecState) (u : String),
        luaSave st u = .ok (st.nsmgr.namespaces.map (fun p => p.1))) := by
  refine ⟨by decide, ?_, ?_, ?_⟩
  · intro st u ns k h
    unfold luaSelect
    rw [h]
    rfl
  · intro st u ns k v h
    unfold luaInsert
    rw [h]
    rfl
  · intro st u
    rfl

/-- Witness for the amended C1 at the concrete counterexample state. -/
theorem bound_function_auth_amended_witness :
    luaSelect c1State "mallory" "docs" "k" = .error "Unauthorized"
    ∧ luaInsert c1State "mallory" "docs" "k" "v" = .error "Unauthorized" := by
  exact ⟨bound_function_auth_amended.2.1 c1State "mallory" "docs" "k" (by decide),
    bound_function_auth_amended.2.2.1 c1State "mallory" "docs" "k" "v" (by decide)⟩

/-- C9 counterexample state: namespace `docs` exists and holds no key;
principal `mallory` holds no permissions. -/
def c9State : ExecState := c1State

/-- C9 counterexample -- `select` can raise an error even though the
namespace exists and the underlying store is healthy: for a principal not
authorized for `select`, the binding raises `"Unauthorized"` instead of
succeeding with `nil`. -/
theorem select_missing_key_counterexample :
    c9State.nsmgr.namespace_exists "docs" = true
    ∧ luaSelect c9State "mallory" "docs" "absent" = .error "Unauthorized" := by
  exact ⟨by decide, by rfl⟩

/-- C9 amended -- for a principal authorized for `select`, the `select`
binding on an existing namespace never raises a key-not-found error: a
missing key yields `nil` (`none`) and a present key yields its value; an
error is raised only when the namespace is absent (or, outside this pure
model, when the store itself fails). -/
theorem select_missing_key_returns_nil :
    ∀ (st : ExecState) (u nsName k : String),
      st.auth.is_authorized u "select" = true →
      (∀ ns, st.nsmgr.get_namespace nsName = .ok ns →
        luaSelect st u nsName k = .ok (mapLookup ns.db k))
      ∧ (∀ e, st.nsmgr.get_namespace nsName = .error e →
        luaSelect st u nsName k = .error ("Namespace error: " ++ e)) := by
  intro st u nsName k hauth
  constructor
  · intro ns hns
    unfold luaSelect
    rw [hauth, hns]
    rfl
  · intro e hns
    unfold luaSelect
    rw [hauth, hns]
    rfl

/-- Witness for the amended C9: with `select` granted, a missing key yields
`nil` (`none`), not an error. -/
theorem select_missing_key_returns_nil_witness :
    luaSelect ⟨c1State.nsmgr, AuthManager.new.add_user "alice" ["select"]⟩
      "alice" "docs" "absent" = .ok none := by
  exact (select_missing_key_returns_nil
    ⟨c1State.nsmgr, AuthManager.new.add_user "alice" ["select"]⟩
    "alice" "docs" "absent" (by decide)).1 ⟨[], ⟨3, .cos, .f32⟩⟩ (by rfl)

/-! ## Script values and JSON values

`rlua::Value` restricted to the constructors the executor handles, plus
`serde_json::Value`. A Lua table is a finite map from keys (integers or
strings, the key sorts the marshaling layer meets) to non-nil values; it is
represented canonically as an association list sorted with integer keys
ascending first, then string keys ascending, which is an order-independent
representative of Lua's unordered `pairs` iteration. A `serde_json` object
(`Map<String, Value>`, a `BTreeMap` by default) is a list sorted by key,
which is exactly its iteration order. The `f64` payload of a float is
carried as its 64 bits; the marshaling layer never computes with it. -/

/-- The bit pattern of an `f64` number payload. -/
structure F64 where
  bits : Nat
deriving DecidableEq, Repr

/-- `serde_json::Number::from_f64` returns `Some` exactly for finite floats:
the 11 exponent bits are not all ones (not NaN, not infinite). -/
def F64.isFiniteRepr (f : F64) : Bool :=
  decide ((f.bits / 2 ^ 52) % 2 ^ 11 ≠ 2047)

inductive LuaKey where
  | intKey (i : Int)
  | strKey (s : String)
deriving DecidableEq, Repr

inductive LuaVal where
  | nil
  | boolean (b : Bool)
  | integer (i : Int)
  | number (f : F64)
  | str (s : String)
  | table (fields : List (LuaKey × LuaVal))
  | function

inductive Json where
  | null
  | bool (b : Bool)
  | intNum (i : Int)
  | floatNum (f : F64)
  | str (s : String)
  | arr (elems : List Json)
  | obj (fields : List (String × Json))

/-! ## Return-value coercion (`QueryExecutor::execute`, src/query/executor.rs)

After evaluation, `execute` matches the script's final value: strings pass
through, numbers/integers/booleans are rendered with `to_string`, `Nil`
becomes the string `"nil"`, and anything else is the terminal runtime error
`"Unexpected Lua return type"`. The `f64` `Display` rendering is an external
library function, abstracted as the `render` parameter. -/

def coerceReturn (render : F64 → String) : LuaVal → Except String String
  | .str s => .ok s
  | .number n => .ok (render n)
  | .integer i => .ok (toString i)
  | .boolean b => .ok (if b then "true" else "false")
  | .nil => .ok "nil"
  | _ => .error "Unexpected Lua return type"

/-- `QueryExecutor::execute` after the script has been loaded and evaluated:
an evaluation error propagates; a value is coerced. The Lua interpreter
itself is the external collaborator producing `evalResult`. -/
def executeModel (render : F64 → String) (evalResult : Except String LuaVal) :
    Except String String :=
  match evalResult with
  | .error e => .error e
  | .ok v => coerceReturn render v

/-- The claim's list of transport-safe final value types (spec side):
string, number (int or float), bool, nil. -/
def isTransportScalar : LuaVal → Bool
  | .nil => true
  | .boolean _ => true
  | .integer _ => true
  | .number _ => true
  | .str _ => true
  | _ => false

/-- C3 -- when evaluation succeeds, `execute` returns the coerced final
value exactly when that value is a string, a number (integer or float), a
boolean, or nil; any other final value type yields the terminal error
`"Unexpected Lua return type"` instead of a result, and strings pass
through unchanged. -/
theorem execute_return_coercion :
    ∀ (render : F64 → String) (v : LuaVal),
      ((∃ s, executeModel render (.ok v) = .ok s) ↔ isTransportScalar v = true)
      ∧ (isTransportScalar v = false →
          executeModel render (.ok v) = .error "Unexpected Lua return type")
      ∧ (∀ s, executeModel render (.ok (.str s)) = .ok s) := by
  intro render v
  refine ⟨?_, ?_, fun s => rfl⟩
  · cases v <;> simp [executeModel, coerceReturn, isTransportScalar]
  · cases v <;> simp [executeModel, coerceReturn, isTransportScalar]

/-- Witness for C3: a table (non-scalar) final value is the terminal type
error; an integer final value is returned rendered. -/
theorem execute_return_coercion_witness :
    executeModel (fun _ => "") (.ok (.table [])) = .error "Unexpected Lua return type"
    ∧ (∃ s, executeModel (fun _ => "") (.ok (.integer 7)) = .ok s) := by
  exact ⟨(execute_return_coercion (fun _ => "") (.table [])).2.1 rfl,
    ((execute_return_coercion (fun _ => "") (.integer 7)).1).2 rfl⟩

/-! ## Value marshaling (`lua_value_to_json` / `json_to_lua_value`,
src/query/executor.rs)

`serde_json::to_string` / `from_str` (the string layer between the two
conversion functions) is an external collaborator that round-trips the JSON
value tree exactly, including the integer-vs-float tag of every number
(`i64` values print without a decimal point and re-parse as integers;
finite `f64` values print with a `.` or exponent and re-parse as the same
float); it is therefore modeled as the identity on `Json`. -/

/-- The `is_array`/`max_idx` scan heading the table case of
`lua_value_to_json`: walk the pairs, stopping with `is_array = false` at the
first key that is not a positive integer, otherwise tracking the maximum
key. -/
def scanArrayShape : List (LuaKey × LuaVal) → Int → Bool × Int
  | [], m => (true, m)
  | (k, _) :: rest, m =>
    match k with
    | .intKey i => if 0 < i then scanArrayShape rest (if m < i then i else m) else (false, m)
    | .strKey _ => (false, m)

/-- Lua's number-to-string key coercion applied by
`pairs::<String, LuaValue>` in the object branch. -/
def luaKeyToString : LuaKey → String
  | .intKey i => toString i
  | .strKey s => s

/-- `serde_json::Map::insert` (a `BTreeMap`): keyed insertion into the
sorted association list, replacing on an equal key. -/
def jsonMapInsert (m : List (String × Json)) (k : String) (v : Json) : List (String × Json) :=
  match m with
  | [] => [(k, v)]
  | (k', v') :: rest =>
    if k < k' then (k, v) :: (k', v') :: rest
    else if k = k' then (k, v) :: rest
    else (k', v') :: jsonMapInsert rest k v

/-- `Table::get(i)` over the already-encoded pairs. -/
def keyLookup (enc : List (LuaKey × Json)) (k : LuaKey) : Option Json :=
  match enc with
  | [] => none
  | (k', j) :: rest => if k' = k then some j else keyLookup rest k

/-- The array branch of `lua_value_to_json`: element `i` for `i` in
`1..=max_idx` is `t.get(i)` encoded, which is the encoded pair value when
the key is present and `null` (the encoding of `Nil`) at a gap. -/
def arrayFromEncoded (enc : List (LuaKey × Json)) (n : Nat) : List Json :=
  (List.range' 1 n).map (fun i => (keyLookup enc (.intKey (Int.ofNat i))).getD .null)

mutual

/-- `lua_value_to_json`. In the table case the source encodes each element
value at the point it is consumed (array branch: `t.get(i)` for each index;
object branch: each pair); the embedding encodes every pair's value first
(`encodeFields`) and then assembles the same result, which agrees because
for an array-shaped table every key lies in `1..=max_idx`, so exactly the
same values are encoded in both formulations. -/
def lua_value_to_json : LuaVal → Except String Json
  | .nil => .ok .null
  | .boolean b => .ok (.bool b)
  | .integer i => .ok (.intNum i)
  | .number n =>
    if n.isFiniteRepr then .ok (.floatNum n)
    else .error "Invalid number for JSON"
  | .str s => .ok (.str s)
  | .function => .error "Cannot convert value to JSON"
  | .table fields =>
    match encodeFields fields with
    | .error e => .error e
    | .ok enc =>
      if (scanArrayShape fields 0).1 && decide (0 < (scanArrayShape fields 0).2) then
        .ok (.arr (arrayFromEncoded enc (scanArrayShape fields 0).2.toNat))
      else
        .ok (.obj (enc.foldl (fun m kv => jsonMapInsert m (luaKeyToString kv.1) kv.2) []))

/-- Encode each pair's value, left to right, propagating the first error. -/
def encodeFields : List (LuaKey × LuaVal) → Except String (List (LuaKey × Json))
  | [] => .ok []
  | (k, v) :: rest =>
    match lua_value_to_json v with
    | .error e => .error e
    | .ok j =>
      match encodeFields rest with
      | .error e => .error e
      | .ok tail => .ok ((k, j) :: tail)

end

mutual

/-- `json_to_lua_value`. Numbers keep their integer-vs-float tag
(`as_i64` succeeds exactly on integer-tagged `serde_json` numbers). Setting
a table slot to `Nil` stores nothing in Lua, so `null` elements/members are
skipped when tables are rebuilt. -/
def json_to_lua_value : Json → LuaVal
  | .null => .nil
  | .bool b => .boolean b
  | .intNum i => .integer i
  | .floatNum f => .number f
  | .str s => .str s
  | .arr elems => .table (decodeArrayFields elems 1)
  | .obj fields => .table (decodeObjectFields fields)

/-- `table.set(i + 1, decoded)` for each array element, in order. -/
def decodeArrayFields : List Json → Nat → List (LuaKey × LuaVal)
  | [], _ => []
  | j :: rest, i =>
    match json_to_lua_value j with
    | .nil => decodeArrayFields rest (i + 1)
    | v => (.intKey (Int.ofNat i), v) :: decodeArrayFields rest (i + 1)

/-- `table.set(k, decoded)` for each object member, in map (sorted) order. -/
def decodeObjectFields : List (String × Json) → List (LuaKey × LuaVal)
  | [] => []
  | (k, j) :: rest =>
    match json_to_lua_value j with
    | .nil => decodeObjectFields rest
    | v => (.strKey k, v) :: decodeObjectFields rest

end

/-! ### The representable domain

The claim's domain: values built from null, bool, int, float, string,
array and object. On the Lua side these are the values in which every table
is either an array (keys exactly `1..N`, in the canonical order) or an
object (string keys, in the canonical sorted order), every table value is
non-nil (a nil "value" is simply an absent key in Lua), and every float is
finite (a NaN/infinite float has no JSON encoding). -/

def isNilB : LuaVal → Bool
  | .nil => true
  | _ => false

def contiguousKeyList : List LuaKey → Nat → Bool
  | [], _ => true
  | k :: rest, i => decide (k = .intKey (Int.ofNat i)) && contiguousKeyList rest (i + 1)

def ascendingStrKeyList : List LuaKey → Option String → Bool
  | [], _ => true
  | .strKey s :: rest, none => ascendingStrKeyList rest (some s)
  | .strKey s :: rest, some prev => decide (prev < s) && ascendingStrKeyList rest (some s)
  | .intKey _ :: _, _ => false

mutual

def scriptRepresentable : LuaVal → Bool
  | .nil => true
  | .boolean _ => true
  | .integer _ => true
  | .number f => f.isFiniteRepr
  | .str _ => true
  | .function => false
  | .table fields =>
    (contiguousKeyList (fields.map (fun p => p.1)) 1
      || ascendingStrKeyList (fields.map (fun p => p.1)) none)
    && fieldsRepresentable fields

def fieldsRepresentable : List (LuaKey × LuaVal) → Bool
  | [] => true
  | (_, v) :: rest =>
    !(isNilB v) && scriptRepresentable v && fieldsRepresentable rest

end

/-! ### Marshaling lemmas -/

theorem isNilB_false_iff (v : LuaVal) : isNilB v = false ↔ v ≠ LuaVal.nil := by
  cases v <;> simp [isNilB]

/-- Code-side array criterion on a single key (the guard in the scan). -/
def keyIsPosInt : LuaKey → Bool
  | .intKey i => decide (0 < i)
  | .strKey _ => false

theorem scan_snd_ge : ∀ (fields : List (LuaKey × LuaVal)) (m : Int),
    m ≤ (scanArrayShape fields m).2 := by
  intro fields
  induction fields with
  | nil => intro m; exact le_refl m
  | cons hd tl ih =>
    intro m
    obtain ⟨k, v⟩ := hd
    cases k with
    | intKey i =>
      simp only [scanArrayShape]
      by_cases hi : 0 < i
      · rw [if_pos hi]
        refine le_trans ?_ (ih (if m < i then i else m))
        by_cases hm : m < i
        · rw [if_pos hm]; exact le_of_lt hm
        · rw [if_neg hm]
      · rw [if_neg hi]
    | strKey s => exact le_refl m

theorem scan_fst_iff : ∀ (fields : List (LuaKey × LuaVal)) (m : Int),
    (scanArrayShape fields m).1 = true ↔ ∀ p ∈ fields, keyIsPosInt p.1 = true := by
  intro fields
  induction fields with
  | nil => intro m; simp [scanArrayShape]
  | cons hd tl ih =>
    intro m
    obtain ⟨k, v⟩ := hd
    cases k with
    | intKey i =>
      simp only [scanArrayShape]
      by_cases hi : 0 < i
      · rw [if_pos hi, ih]
        constructor
        · intro h p hp
          rcases List.mem_cons.1 hp with rfl | hp
          · simp [keyIsPosInt, hi]
          · exact h p hp
        · intro h p hp
          exact h p (List.mem_cons_of_mem _ hp)
      · rw [if_neg hi]
        constructor
        · intro h; cases h
        · intro h
          have := h (LuaKey.intKey i, v) (List.mem_cons_self _ _)
          simp [keyIsPosInt, hi] at this
    | strKey s =>
      simp only [scanArrayShape]
      constructor
      · intro h; cases h
      · intro h
        have := h (LuaKey.strKey s, v) (List.mem_cons_self _ _)
        simp [keyIsPosInt] at this

theorem scan_snd_pos : ∀ (fields : List (LuaKey × LuaVal)) (m : Int),
    0 ≤ m → fields ≠ [] → (∀ p ∈ fields, keyIsPosInt p.1 = true) →
    0 < (scanArrayShape fields m).2 := by
  intro fields m hm hne hall
  cases fields with
  | nil => exact absurd rfl hne
  | cons hd tl =>
    obtain ⟨k, v⟩ := hd
    cases k with
    | intKey i =>
      have hi : 0 < i := by
        have := hall (LuaKey.intKey i, v) (List.mem_cons_self _ _)
        simpa [keyIsPosInt] using this
      simp only [scanArrayShape, if_pos hi]
      have hge := scan_snd_ge tl (if m < i then i else m)
      refine lt_of_lt_of_le ?_ hge
      by_cases hmi : m < i
      · rw [if_pos hmi]; exact hi
      · rw [if_neg hmi]; exact lt_of_lt_of_le hi (le_of_not_lt hmi)
    | strKey s =>
      have := hall (LuaKey.strKey s, v) (List.mem_cons_self _ _)
      simp [keyIsPosInt] at this

theorem scan_contiguous : ∀ (fields : List (LuaKey × LuaVal)) (i : Nat) (m : Int),
    contiguousKeyList (fields.map (fun p => p.1)) i = true → 0 < i → m < Int.ofNat i →
    fields ≠ [] →
    scanArrayShape fields m = (true, Int.ofNat (i - 1 + fields.length)) := by
  intro fields
  induction fields with
  | nil => intro i m _ _ _ hne; exact absurd rfl hne
  | cons hd tl ih =>
    intro i m hcont hi hm _
    obtain ⟨k, v⟩ := hd
    simp only [List.map_cons, contiguousKeyList, Bool.and_eq_true, decide_eq_true_eq] at hcont
    obtain ⟨rfl, hcont⟩ := hcont
    have hipos : (0 : Int) < Int.ofNat i := Int.ofNat_pos.2 hi
    simp only [scanArrayShape, if_pos hipos, if_pos hm]
    cases tl with
    | nil =>
      simp only [scanArrayShape, List.length_cons, List.length_nil]
      have harith : i - 1 + (0 + 1) = i := by omega
      rw [harith]
    | cons hd2 tl2 =>
      rw [ih (i + 1) (Int.ofNat i) hcont (Nat.succ_pos i)
        (Int.ofNat_lt.2 (Nat.lt_succ_self i)) (by simp)]
      simp only [List.length_cons]
      have harith : i + 1 - 1 + (tl2.length + 1) = i - 1 + (tl2.length + 1 + 1) := by omega
      rw [harith]

theorem lookup_contiguous : ∀ (enc : List (LuaKey × Json)) (i : Nat),
    contiguousKeyList (enc.map (fun p => p.1)) i = true → 0 < i →
    (List.range' i enc.length).map
        (fun idx => (keyLookup enc (.intKey (Int.ofNat idx))).getD .null)
      = enc.map (fun p => p.2) := by
  intro enc
  induction enc with
  | nil => intro i _ _; rfl
  | cons hd tl ih =>
    intro i hcont hi
    obtain ⟨k, j⟩ := hd
    simp only [List.map_cons, contiguousKeyList, Bool.and_eq_true, decide_eq_true_eq] at hcont
    obtain ⟨rfl, hcont⟩ := hcont
    simp only [List.length_cons, List.range'_succ, List.map_cons]
    congr 1
    · simp [keyLookup]
    · have hstep : ∀ idx ∈ List.range' (i + 1) tl.length,
          (keyLookup ((LuaKey.intKey (Int.ofNat i), j) :: tl) (.intKey (Int.ofNat idx))).getD .null
            = (keyLookup tl (.intKey (Int.ofNat idx))).getD .null := by
        intro idx hidx
        have hge : i + 1 ≤ idx := (List.mem_range'_1.1 hidx).1
        have hne2 : ¬ i = idx := by omega
        simp [keyLookup, hne2]
      rw [List.map_congr_left hstep]
      exact ih (i + 1) hcont (Nat.succ_pos i)

theorem decodeArrayFields_cons_nonnil (j : Json) (rest : List Json) (i : Nat)
    (h : json_to_lua_value j ≠ .nil) :
    decodeArrayFields (j :: rest) i
      = (.intKey (Int.ofNat i), json_to_lua_value j) :: decodeArrayFields rest (i + 1) := by
  simp only [decodeArrayFields]

theorem decodeObjectFields_cons_nonnil (k : String) (j : Json) (rest : List (String × Json))
    (h : json_to_lua_value j ≠ .nil) :
    decodeObjectFields ((k, j) :: rest)
      = (.strKey k, json_to_lua_value j) :: decodeObjectFields rest := by
  simp only [decodeObjectFields]

/-- The element relation produced by `encodeFields`: same key, and the
encoded value decodes back to the original non-nil value. -/
def EncRel (p : LuaKey × LuaVal) (q : LuaKey × Json) : Prop :=
  q.1 = p.1 ∧ json_to_lua_value q.2 = p.2 ∧ p.2 ≠ LuaVal.nil

theorem decode_array_contiguous : ∀ (fields : List (LuaKey × LuaVal))
    (encs : List (LuaKey × Json)) (i : Nat),
    List.Forall₂ EncRel fields encs →
    contiguousKeyList (fields.map (fun p => p.1)) i = true →
    decodeArrayFields (encs.map (fun p => p.2)) i = fields := by
  intro fields encs i hfor
  induction hfor generalizing i with
  | nil => intro _; rfl
  | @cons p q ftl etl hrel _ ih =>
    intro hcont
    simp only [List.map_cons, contiguousKeyList, Bool.and_eq_true, decide_eq_true_eq] at hcont
    obtain ⟨hp1, hcont⟩ := hcont
    obtain ⟨_hq1, hdec, hnn⟩ := hrel
    rw [List.map_cons, decodeArrayFields_cons_nonnil q.2 _ i (by rw [hdec]; exact hnn)]
    rw [hdec, ih (i + 1) hcont]
    rw [← hp1]

theorem decode_object_fields : ∀ (fields : List (LuaKey × LuaVal))
    (encs : List (LuaKey × Json)),
    List.Forall₂ EncRel fields encs →
    (∀ p ∈ fields, ∃ s, p.1 = LuaKey.strKey s) →
    decodeObjectFields (encs.map (fun kv => (luaKeyToString kv.1, kv.2))) = fields := by
  intro fields encs hfor
  induction hfor with
  | nil => intro _; rfl
  | @cons p q ftl etl hrel _ ih =>
    intro hstr
    obtain ⟨hq1, hdec, hnn⟩ := hrel
    obtain ⟨s, hs⟩ := hstr p (List.mem_cons_self _ _)
    rw [List.map_cons, show (luaKeyToString q.1, q.2) = (s, q.2) by rw [hq1, hs]; rfl]
    rw [decodeObjectFields_cons_nonnil s q.2 _ (by rw [hdec]; exact hnn)]
    rw [hdec, ih (fun p hp => hstr p (List.mem_cons_of_mem _ hp))]
    rw [← hs]

theorem asc_strKeys : ∀ (keys : List LuaKey) (prev : Option String),
    ascendingStrKeyList keys prev = true →
    ∃ strs : List String, keys = strs.map LuaKey.strKey
      ∧ List.Pairwise (fun a b => a < b) strs
      ∧ (∀ s ∈ strs, ∀ p, prev = some p → p < s) := by
  intro keys
  induction keys with
  | nil =>
    intro prev _
    exact ⟨[], rfl, List.Pairwise.nil, by simp⟩
  | cons k tl ih =>
    intro prev hasc
    cases k with
    | intKey i => cases prev <;> simp [ascendingStrKeyList] at hasc
    | strKey s =>
      have hnext : ascendingStrKeyList tl (some s) = true ∧
          (∀ p, prev = some p → p < s) := by
        cases prev with
        | none => exact ⟨hasc, by simp⟩
        | some p =>
          simp only [ascendingStrKeyList, Bool.and_eq_true, decide_eq_true_eq] at hasc
          exact ⟨hasc.2, by intro p' hp'; cases hp'; exact hasc.1⟩
      obtain ⟨strs, hkeys, hpw, hgt⟩ := ih (some s) hnext.1
      refine ⟨s :: strs, by rw [List.map_cons, hkeys], ?_, ?_⟩
      · exact List.Pairwise.cons (fun t ht => hgt t ht s rfl) hpw
      · intro t ht p hp
        rcases List.mem_cons.1 ht with rfl | ht
        · exact hnext.2 p hp
        · exact lt_trans (hnext.2 p hp) (hgt t ht s rfl)

theorem jsonMapInsert_append : ∀ (acc : List (String × Json)) (k : String) (v : Json),
    (∀ p ∈ acc, p.1 < k) → jsonMapInsert acc k v = acc ++ [(k, v)] := by
  intro acc
  induction acc with
  | nil => intro k v _; rfl
  | cons hd tl ih =>
    intro k v hlt
    obtain ⟨k', v'⟩ := hd
    have hk' : k' < k := hlt (k', v') (List.mem_cons_self _ _)
    simp only [jsonMapInsert]
    rw [if_neg (not_lt_of_gt hk'), if_neg (ne_of_gt hk'),
      ih k v (fun p hp => hlt p (List.mem_cons_of_mem _ hp))]
    rfl

theorem foldl_jsonMapInsert_sorted : ∀ (entries acc : List (String × Json)),
    List.Pairwise (fun (a b : String × Json) => a.1 < b.1) (acc ++ entries) →
    entries.foldl (fun m kv => jsonMapInsert m kv.1 kv.2) acc = acc ++ entries := by
  intro entries
  induction entries with
  | nil => intro acc _; simp
  | cons e rest ih =>
    intro acc hpw
    have hins : jsonMapInsert acc e.1 e.2 = acc ++ [e] := by
      refine jsonMapInsert_append acc e.1 e.2 ?_
      intro p hp
      exact ((List.pairwise_append.1 hpw).2.2 p hp e (List.mem_cons_self _ _))
    simp only [List.foldl_cons, hins]
    have hrearrange : (acc ++ [e]) ++ rest = acc ++ e :: rest := by
      rw [List.append_assoc]
      rfl
    rw [ih (acc ++ [e]) (by rw [hrearrange]; exact hpw), hrearrange]

theorem forall₂_keys_eq : ∀ (fields : List (LuaKey × LuaVal)) (encs : List (LuaKey × Json)),
    List.Forall₂ EncRel fields encs →
    encs.map (fun p => p.1) = fields.map (fun p => p.1) := by
  intro fields encs hfor
  induction hfor with
  | nil => rfl
  | @cons p q _ _ hrel _ ih =>
    simp only [List.map_cons, ih, hrel.1]

theorem lua_value_to_json_table_ok (fields : List (LuaKey × LuaVal))
    (encs : List (LuaKey × Json)) (h : encodeFields fields = .ok encs) :
    lua_value_to_json (.table fields) =
      if (scanArrayShape fields 0).1 && decide (0 < (scanArrayShape fields 0).2) then
        .ok (.arr (arrayFromEncoded encs (scanArrayShape fields 0).2.toNat))
      else
        .ok (.obj (encs.foldl (fun m kv => jsonMapInsert m (luaKeyToString kv.1) kv.2) [])) := by
  simp only [lua_value_to_json]
  rw [h]

/-! ### The marshaling round trip -/

mutual

theorem roundtrip_val : ∀ (v : LuaVal), scriptRepresentable v = true →
    ∃ j, lua_value_to_json v = .ok j ∧ json_to_lua_value j = v
  | .nil, _ => ⟨.null, rfl, rfl⟩
  | .boolean b, _ => ⟨.bool b, rfl, rfl⟩
  | .integer i, _ => ⟨.intNum i, rfl, rfl⟩
  | .number f, h => by
    refine ⟨.floatNum f, ?_, rfl⟩
    simp only [scriptRepresentable] at h
    simp [lua_value_to_json, h]
  | .str s, _ => ⟨.str s, rfl, rfl⟩
  | .function, h => by simp [scriptRepresentable] at h
  | .table fields, h => by
    simp only [scriptRepresentable, Bool.and_eq_true, Bool.or_eq_true] at h
    obtain ⟨hshape, hfr⟩ := h
    obtain ⟨encs, henc, hfor⟩ := roundtrip_fields fields hfr
    rw [lua_value_to_json_table_ok fields encs henc]
    by_cases hc : contiguousKeyList (fields.map (fun p => p.1)) 1 = true
    · cases fields with
      | nil =>
        have hencs : encs = [] := by cases hfor; rfl
        subst hencs
        exact ⟨.obj [], rfl, rfl⟩
      | cons f0 ftl =>
        have hscan := scan_contiguous (f0 :: ftl) 1 0 hc Nat.one_pos (by decide) (by simp)
        rw [hscan]
        have hlen : 1 - 1 + (f0 :: ftl).length = encs.length := by
          rw [← hfor.length_eq]
          omega
        have hpos : (0 : Int) < Int.ofNat (1 - 1 + (f0 :: ftl).length) := by
          rw [hlen]
          exact Int.ofNat_pos.2 (by rw [← hfor.length_eq]; simp)
        rw [if_pos (by simp [hpos])]
        refine ⟨_, rfl, ?_⟩
        have harr : arrayFromEncoded encs (Int.ofNat (1 - 1 + (f0 :: ftl).length)).toNat
            = encs.map (fun p => p.2) := by
          have htn : (Int.ofNat (1 - 1 + (f0 :: ftl).length)).toNat
              = 1 - 1 + (f0 :: ftl).length := rfl
          rw [htn, hlen]
          exact lookup_contiguous encs 1
            (by rw [forall₂_keys_eq _ _ hfor]; exact hc) Nat.one_pos
        rw [harr]
        simp only [json_to_lua_value]
        rw [decode_array_contiguous (f0 :: ftl) encs 1 hfor hc]
    · have hasc : ascendingStrKeyList (fields.map (fun p => p.1)) none = true := by
        rcases hshape with hl | hr
        · exact absurd hl hc
        · exact hr
      obtain ⟨strs, hkeys, hpw, _⟩ := asc_strKeys _ none hasc
      have hstrkeys : ∀ p ∈ fields, ∃ s, p.1 = LuaKey.strKey s := by
        intro p hp
        have : p.1 ∈ strs.map LuaKey.strKey := by
          rw [← hkeys]
          exact List.mem_map_of_mem _ hp
        obtain ⟨s, _, hs⟩ := List.mem_map.1 this
        exact ⟨s, hs.symm⟩
      have hscan : scanArrayShape fields 0 = (false, 0) := by
        cases fields with
        | nil => exact absurd rfl hc
        | cons f0 ftl =>
          obtain ⟨s0, hs0⟩ := hstrkeys f0 (List.mem_cons_self _ _)
          obtain ⟨fk, fv⟩ := f0
          simp only at hs0
          subst hs0
          rfl
      rw [hscan]
      rw [if_neg (by simp)]
      have hentries : encs.foldl (fun m kv => jsonMapInsert m (luaKeyToString kv.1) kv.2) []
          = encs.map (fun kv => (luaKeyToString kv.1, kv.2)) := by
        have henckeys : encs.map (fun p => p.1) = strs.map LuaKey.strKey := by
          rw [forall₂_keys_eq _ _ hfor, hkeys]
        have hmapfst : (encs.map (fun kv => (luaKeyToString kv.1, kv.2))).map
            (fun p => p.1) = strs := by
          calc (encs.map (fun kv => (luaKeyToString kv.1, kv.2))).map (fun p => p.1)
              = encs.map (fun (kv : LuaKey × Json) => luaKeyToString kv.1) := by
                rw [List.map_map]
                rfl
            _ = (encs.map (fun p => p.1)).map (fun k => luaKeyToString k) := by
                rw [List.map_map]
                rfl
            _ = (strs.map LuaKey.strKey).map (fun k => luaKeyToString k) := by
                rw [henckeys]
            _ = strs := by
                rw [List.map_map]
                have hid : ((fun k => luaKeyToString k) ∘ LuaKey.strKey)
                    = (fun (s : String) => s) := rfl
                rw [hid]
                simp
        have hpwentries : List.Pairwise (fun (a b : String × Json) => a.1 < b.1)
            (encs.map (fun kv => (luaKeyToString kv.1, kv.2))) := by
          have := (List.pairwise_map (f := fun (p : String × Json) => p.1)
            (R := fun (a b : String) => a < b)
            (l := encs.map (fun kv => (luaKeyToString kv.1, kv.2)))).1
          refine this ?_
          rw [hmapfst]
          exact hpw
        have := foldl_jsonMapInsert_sorted (encs.map (fun kv => (luaKeyToString kv.1, kv.2)))
          [] (by simpa using hpwentries)
        simp only [List.nil_append] at this
        rw [← this, List.foldl_map]
      rw [hentries]
      refine ⟨_, rfl, ?_⟩
      simp only [json_to_lua_value]
      rw [decode_object_fields fields encs hfor hstrkeys]

theorem roundtrip_fields : ∀ (fields : List (LuaKey × LuaVal)),
    fieldsRepresentable fields = true →
    ∃ encs, encodeFields fields = .ok encs ∧ List.Forall₂ EncRel fields encs
  | [], _ => ⟨[], rfl, List.Forall₂.nil⟩
  | (k, v) :: rest, h => by
    simp only [fieldsRepresentable, Bool.and_eq_true, Bool.not_eq_true'] at h
    obtain ⟨⟨hnn, hv⟩, hrest⟩ := h
    obtain ⟨j, hj, hdec⟩ := roundtrip_val v hv
    obtain ⟨encs, henc, hfor⟩ := roundtrip_fields rest hrest
    refine ⟨(k, j) :: encs, ?_, ?_⟩
    · simp only [encodeFields]
      rw [hj, henc]
    · exact List.Forall₂.cons ⟨rfl, hdec, (isNilB_false_iff v).1 hnn⟩ hfor

end

/-- C4 -- encoding any representable value (finite-depth nesting of null,
bool, int, finite float, string, array, object) with the host encoder and
decoding it back with the host decoder yields a structurally equal value
(the serde string layer round-trips the `Json` tree exactly, including
number tags, and is modeled as the identity); the integer-vs-floating
distinction of every number is preserved in both directions. -/
theorem lua_json_roundtrip :
    (∀ v : LuaVal, scriptRepresentable v = true →
      ∃ j, lua_value_to_json v = .ok j ∧ json_to_lua_value j = v)
    ∧ (∀ i : Int, lua_value_to_json (.integer i) = .ok (.intNum i))
    ∧ (∀ f : F64, f.isFiniteRepr = true → lua_value_to_json (.number f) = .ok (.floatNum f))
    ∧ (∀ i : Int, json_to_lua_value (.intNum i) = .integer i)
    ∧ (∀ f : F64, json_to_lua_value (.floatNum f) = .number f) := by
  refine ⟨roundtrip_val, fun i => rfl, ?_, fun i => rfl, fun f => rfl⟩
  intro f h
  simp [lua_value_to_json, h]

/-- Witness for C4 at a concrete nested value: an array of a string and an
integer survives the round trip unchanged. -/
theorem lua_json_roundtrip_witness :
    ∃ j, lua_value_to_json (.table [(.intKey 1, .str "a"), (.intKey 2, .integer 5)]) = .ok j
      ∧ json_to_lua_value j
          = .table [(.intKey 1, .str "a"), (.intKey 2, .integer 5)] :=
  lua_json_roundtrip.1 (.table [(.intKey 1, .str "a"), (.intKey 2, .integer 5)]) (by rfl)

theorem lua_value_to_json_table_err (fields : List (LuaKey × LuaVal)) (e : String)
    (h : encodeFields fields = .error e) :
    lua_value_to_json (.table fields) = .error e := by
  simp only [lua_value_to_json]
  rw [h]

theorem decodeArrayFields_cons_nil (j : Json) (rest : List Json) (i : Nat)
    (h : json_to_lua_value j = .nil) :
    decodeArrayFields (j :: rest) i = decodeArrayFields rest (i + 1) := by
  simp only [decodeArrayFields, h]

theorem decodeArrayFields_keys_pos : ∀ (elems : List Json) (i : Nat), 0 < i →
    ∀ p ∈ decodeArrayFields elems i, keyIsPosInt p.1 = true := by
  intro elems
  induction elems with
  | nil => intro i _ p hp; cases hp
  | cons j rest ih =>
    intro i hi p hp
    by_cases hj : json_to_lua_value j = .nil
    · rw [decodeArrayFields_cons_nil j rest i hj] at hp
      exact ih (i + 1) (Nat.succ_pos i) p hp
    · rw [decodeArrayFields_cons_nonnil j rest i hj] at hp
      rcases List.mem_cons.1 hp with rfl | hp
      · simp only [keyIsPosInt, decide_eq_true_eq]
        exact Int.ofNat_pos.2 hi
      · exact ih (i + 1) (Nat.succ_pos i) p hp

/-- The claim's array criterion (spec side, C2): the keys are exactly the
positive integers `1..N` for some `N ≥ 1` with no gaps (in the canonical
table order this is the key list `[1, …, N]`). -/
def specArrayKeys (keys : List LuaKey) : Bool :=
  decide (keys ≠ [])
    && decide (keys = (List.range' 1 keys.length).map (fun i => LuaKey.intKey (Int.ofNat i)))

/-- C2 counterexample table: positive integer keys with a gap. -/
def c2GapTable : List (LuaKey × LuaVal) :=
  [(.intKey 1, .str "a"), (.intKey 3, .str "b")]

/-- C2 counterexample -- a table whose keys are positive integers with a gap
(key set `{1, 3}`, which is not `1..N` for any `N`) is still encoded as an
*array* (null-padded at the gap), not as an object as the claim requires. -/
theorem marshal_gap_counterexample :
    lua_value_to_json (.table c2GapTable) = .ok (.arr [.str "a", .null, .str "b"])
    ∧ specArrayKeys (c2GapTable.map (fun p => p.1)) = false :=
  ⟨rfl, rfl⟩

theorem encode_table_isArr_iff :
    ∀ (fields : List (LuaKey × LuaVal)) (j : Json),
      lua_value_to_json (.table fields) = .ok j →
      ((∃ elems, j = .arr elems) ↔
        (fields ≠ [] ∧ ∀ p ∈ fields, keyIsPosInt p.1 = true)) := by
  intro fields j hj
  cases henc : encodeFields fields with
  | error e =>
    rw [lua_value_to_json_table_err fields e henc] at hj
    simp at hj
  | ok encs =>
    rw [lua_value_to_json_table_ok fields encs henc] at hj
    by_cases hcond : ((scanArrayShape fields 0).1
        && decide (0 < (scanArrayShape fields 0).2)) = true
    · rw [if_pos hcond] at hj
      have hj' : j = .arr (arrayFromEncoded encs (scanArrayShape fields 0).2.toNat) := by
        cases hj
        rfl
      subst hj'
      simp only [Bool.and_eq_true, decide_eq_true_eq] at hcond
      constructor
      · intro _
        refine ⟨?_, (scan_fst_iff fields 0).1 hcond.1⟩
        intro hempty
        subst hempty
        simp [scanArrayShape] at hcond
      · intro _
        exact ⟨_, rfl⟩
    · rw [if_neg hcond] at hj
      have hj' : j = .obj (encs.foldl
          (fun m kv => jsonMapInsert m (luaKeyToString kv.1) kv.2) []) := by
        cases hj
        rfl
      subst hj'
      constructor
      · rintro ⟨elems, helems⟩
        cases helems
      · rintro ⟨hne, hall⟩
        exact absurd (by
          simp only [Bool.and_eq_true, decide_eq_true_eq]
          exact ⟨(scan_fst_iff fields 0).2 hall,
            scan_snd_pos fields 0 (le_refl 0) hne hall⟩) hcond

/-- C2 amended -- the encoder classifies a table as an array iff every key is
a positive integer and the table is nonempty (so gapped positive-integer
key sets are still arrays, with `null` at the missing indices); every other
table becomes an object. The decode direction produces from an array a
table whose keys are all *positive* integers but not necessarily
contiguous (a `null` element stores nothing, leaving its index absent), so
a nonempty decoded array is classified as an array again when re-encoded,
while an array whose elements are all `null` decodes to the empty table,
which re-encodes as the empty object. -/
theorem marshal_array_rule_amended :
    (∀ (fields : List (LuaKey × LuaVal)) (j : Json),
      lua_value_to_json (.table fields) = .ok j →
      ((∃ elems, j = .arr elems) ↔
        (fields ≠ [] ∧ ∀ p ∈ fields, keyIsPosInt p.1 = true)))
    ∧ (∀ (elems : List Json) (p : LuaKey × LuaVal),
        p ∈ decodeArrayFields elems 1 → keyIsPosInt p.1 = true)
    ∧ (∀ (elems : List Json) (j : Json),
        decodeArrayFields elems 1 ≠ [] →
        lua_value_to_json (.table (decodeArrayFields elems 1)) = .ok j →
        ∃ elems2, j = .arr elems2)
    ∧ json_to_lua_value (.arr [.null]) = .table []
    ∧ lua_value_to_json (.table []) = .ok (.obj []) := by
  refine ⟨encode_table_isArr_iff, ?_, ?_, rfl, rfl⟩
  · intro elems p hp
    exact decodeArrayFields_keys_pos elems 1 Nat.one_pos p hp
  · intro elems j hne henc
    exact (encode_table_isArr_iff (decodeArrayFields elems 1) j henc).2
      ⟨hne, fun p hp => decodeArrayFields_keys_pos elems 1 Nat.one_pos p hp⟩

/-- Witness for the amended C2 at concrete inputs: the gap table encoded to
an array, so its keys are nonempty and all positive; and the decode of the
array `["a"]` re-encodes as an array. -/
theorem marshal_array_rule_amended_witness :
    (c2GapTable ≠ [] ∧ ∀ p ∈ c2GapTable, keyIsPosInt p.1 = true)
    ∧ ∃ elems2, lua_value_to_json (.table (decodeArrayFields [Json.str "a"] 1))
        = .ok (.arr elems2) := by
  constructor
  · exact (marshal_array_rule_amended.1 c2GapTable (.arr [.str "a", .null, .str "b"]) rfl).1
      ⟨[.str "a", .null, .str "b"], rfl⟩
  · obtain ⟨elems2, harr⟩ := marshal_array_rule_amended.2.2.1 [Json.str "a"]
      (.arr [.str "a"]) (fun h => List.noConfusion h) rfl
    refine ⟨elems2, ?_⟩
    rw [← harr]
    rfl

/-! ## StaticValidator (src/lua/validator.rs, src/lua/errors.rs)

The validator scans the script text with regexes of the two fixed shapes
`\b<literal>\s*\(` (call) and `\b<module>\.` (module reference); the matcher
for exactly these shapes is embedded directly (leftmost match; `\b` holds
where the previous character is not a word character, since every pattern
starts with one; ASCII word/space classes, which coincide with the regex
classes on ASCII scripts). The syntax check (`rlua` compilation) and its
diagnostic post-processing are the external collaborator; its outcome is
the `syntaxErr?` parameter. -/

def isWordChar (c : Char) : Bool := c.isAlphanum || c == '_'

def isRegexSpace (c : Char) : Bool :=
  c == ' ' || c == '\t' || c == '\n' || c == '\r'
    || c == Char.ofNat 11 || c == Char.ofNat 12

/-- Match a literal at the head of the input, returning the remainder. -/
def matchChars : List Char → List Char → Option (List Char)
  | [], s => some s
  | _ :: _, [] => none
  | p :: ps, c :: cs => if p == c then matchChars ps cs else none

/-- Length matched by `<pat>\s*\(` at the head of the input. -/
def callMatchLen (pat : List Char) (s : List Char) : Option Nat :=
  match matchChars pat s with
  | none => none
  | some rest =>
    let ws := (rest.takeWhile isRegexSpace).length
    match rest.drop ws with
    | '(' :: _ => some (pat.length + ws + 1)
    | [] => none
    | _ :: _ => none

/-- Length matched by `<module>\.` at the head of the input. -/
def moduleMatchLen (m : List Char) (s : List Char) : Option Nat :=
  match matchChars (m ++ ['.']) s with
  | none => none
  | some _ => some (m.length + 1)

inductive PatternKind where
  | callPat
  | moduleRefPat
deriving DecidableEq, Repr

/-- One compiled blocked pattern: `\b<pat>\s*\(` for `callPat`, or
`\b<pat>\.` for `moduleRefPat` (where `pat` is the module name). -/
structure BlockedPattern where
  kind : PatternKind
  pat : String
  suggestion : String
deriving DecidableEq, Repr

def patternMatchLen (bp : BlockedPattern) (s : List Char) : Option Nat :=
  match bp.kind with
  | .callPat => callMatchLen bp.pat.toList s
  | .moduleRefPat => moduleMatchLen bp.pat.toList s

def boundaryOk : Option Char → Bool
  | none => true
  | some c => !(isWordChar c)

/-- `Regex::find`: the leftmost position (with match length) at which the
pattern matches, honoring the leading word boundary. -/
def findFrom (p : List Char → Option Nat) : List Char → Nat → Option Char →
    Option (Nat × Nat)
  | [], _, _ => none
  | c :: rest, pos, prev =>
    if boundaryOk prev then
      match p (c :: rest) with
      | some len => some (pos, len)
      | none => findFrom p rest (pos + 1) (some c)
    else findFrom p rest (pos + 1) (some c)

def findPattern (bp : BlockedPattern) (chars : List Char) : Option (Nat × Nat) :=
  findFrom (patternMatchLen bp) chars 0 none

/-- `blocked_functions` (src/lua/errors.rs). -/
def blocked_functions : List (String × String) :=
  [ ("io.open", "File I/O is not allowed. Store data using put() instead."),
    ("io.read", "File I/O is not allowed. Retrieve data using get() instead."),
    ("io.write", "File I/O is not allowed. Store data using put() instead."),
    ("os.execute", "System commands are not allowed for security."),
    ("os.remove", "File deletion is not allowed. Use delete() for keys."),
    ("os.rename", "File operations are not allowed."),
    ("os.exit", "Exiting is not allowed."),
    ("require", "Loading external modules is not allowed."),
    ("loadfile", "Loading files is not allowed."),
    ("dofile", "Executing files is not allowed."),
    ("load", "Loading code strings is not allowed."),
    ("loadstring", "Loading code strings is not allowed."),
    ("debug.getinfo", "Debug functions are not allowed."),
    ("debug.sethook", "Debug functions are not allowed."),
    ("rawget", "Raw table access is not allowed. Use normal indexing."),
    ("rawset", "Raw table access is not allowed. Use normal indexing."),
    ("setmetatable", "Metatable manipulation is not allowed."),
    ("getmetatable", "Metatable access is not allowed.") ]

/-- `LuaValidator::new`: for every blocked function, one call pattern; and
for dotted names, additionally one module-reference pattern with the
module-specific suggestion text. -/
def LuaValidator.blocked_patterns : List BlockedPattern :=
  blocked_functions.flatMap (fun ps =>
    [BlockedPattern.mk .callPat ps.1 ps.2]
      ++ (if ps.1.contains '.' then
        [BlockedPattern.mk .moduleRefPat
          (String.mk (ps.1.toList.takeWhile (fun c => c ≠ '.')))
          ("The '" ++ String.mk (ps.1.toList.takeWhile (fun c => c ≠ '.'))
            ++ "' module is not available. " ++ ps.2)]
      else []))

inductive ErrorTypeL where
  | syntaxError
  | forbiddenFunction
  | undefinedVariable
  | typeMismatch
  | missingReturn
  | complexityExceeded
deriving DecidableEq, Repr

structure ValidationErrorL where
  error_type : ErrorTypeL
  message : String
  line : Option Nat
  column : Option Nat
  suggestion : String
  code_snippet : Option String
deriving DecidableEq, Repr

inductive WarningTypeL where
  | missingReturn
  | unusedVariable
  | deprecatedFunction
deriving DecidableEq, Repr

structure ValidationWarningL where
  warning_type : WarningTypeL
  message : String
  line : Option Nat
  suggestion : String
deriving DecidableEq, Repr

/-- `ValidationWarning::missing_return`. -/
def ValidationWarningL.missing_return : ValidationWarningL :=
  ⟨.missingReturn, "Code does not have an explicit return statement", none,
    "Add 'return <value>' at the end to return a result"⟩

structure FunctionInfoL where
  name : String
  fnSignature : String
  description : String
  returns : String
  usageExample : Option String
deriving DecidableEq, Repr

/-- `available_functions` (src/lua/errors.rs). -/
def available_functions : List FunctionInfoL :=
  [ ⟨"put", "put(namespace, key, value)", "Store a value", "nil",
      some "put('config', 'theme', 'dark')"⟩,
    ⟨"get", "get(namespace, key)", "Retrieve a value", "string|nil",
      some "local theme = get('config', 'theme')"⟩,
    ⟨"delete", "delete(namespace, key)", "Delete a key", "nil",
      some "delete('config', 'old_key')"⟩,
    ⟨"store_with_embedding", "store_with_embedding(namespace, id, content)",
      "Store text with auto-generated embedding", "nil",
      some "store_with_embedding('docs', 'doc1', 'Hello world')"⟩,
    ⟨"semantic_search", "semantic_search(namespace, query, limit)",
      "Search by text similarity", "list of \x7bid, content, distance\x7d",
      some "local results = semantic_search('docs', 'greeting', 5)"⟩,
    ⟨"json.encode", "json.encode(value)", "Convert Lua value to JSON string", "string",
      some "return json.encode(\x7bname = 'test'\x7d)"⟩,
    ⟨"json.decode", "json.decode(string)", "Parse JSON string to Lua value", "table",
      some "local data = json.decode('\x7b\"a\": 1\x7d')"⟩,
    ⟨"filter", "filter(list, fn)", "Filter list by predicate", "list",
      some "filter(items, function(x) return x.age > 18 end)"⟩,
    ⟨"map", "map(list, fn)", "Transform each list element", "list",
      some "map(items, function(x) return x.name end)"⟩,
    ⟨"reduce", "reduce(list, fn, initial)", "Reduce list to single value", "any",
      some "reduce(nums, function(a, b) return a + b end, 0)"⟩,
    ⟨"now", "now()", "Get current Unix timestamp", "number",
      some "local timestamp = now()"⟩,
    ⟨"id", "id()", "Generate unique ID", "string",
      some "local unique_id = id()"⟩ ]

structure ValidationResultL where
  valid : Bool
  errors : List ValidationErrorL
  warnings : List ValidationWarningL
  available_functions : List FunctionInfoL
deriving DecidableEq, Repr

/-- `LuaValidator::line_number`: newlines before the position, plus one. -/
def line_number (chars : List Char) (pos : Nat) : Nat :=
  ((chars.take pos).filter (fun c => c == '\n')).length + 1

def trimChars (l : List Char) : List Char :=
  ((l.dropWhile Char.isWhitespace).reverse.dropWhile Char.isWhitespace).reverse

/-- `LuaValidator::extract_snippet` (±`ctx` chars, ellipsis-truncated). -/
def extract_snippet (chars : List Char) (pos ctx : Nat) : String :=
  let start := pos - ctx
  let stop := min (pos + ctx) chars.length
  let snippet := (chars.drop start).take (stop - start)
  (if 0 < start then "..." else "") ++ String.mk (trimChars snippet)
    ++ (if stop < chars.length then "..." else "")

/-- `str::trim_end_matches('(')`. -/
def trimEndParens (l : List Char) : List Char :=
  (l.reverse.dropWhile (fun c => c == '(')).reverse

def listStartsWith : List Char → List Char → Bool
  | [], _ => true
  | _ :: _, [] => false
  | p :: ps, c :: cs => p == c && listStartsWith ps cs

def hasSubList (pat : List Char) : List Char → Bool
  | [] => listStartsWith pat []
  | c :: cs => listStartsWith pat (c :: cs) || hasSubList pat cs

def hasSubStr (s pat : String) : Bool := hasSubList pat.toList s.toList

def findSubIdx (pat : List Char) : List Char → Option Nat
  | [] => if listStartsWith pat [] then some 0 else none
  | c :: cs =>
    if listStartsWith pat (c :: cs) then some 0
    else (findSubIdx pat cs).map (fun n => n + 1)

def splitLinesAux : List Char → List Char → List (List Char)
  | [], acc => [acc.reverse]
  | c :: rest, acc =>
    if c == '\n' then acc.reverse :: splitLinesAux rest []
    else splitLinesAux rest (c :: acc)

/-- `str::lines` (final empty line from a trailing newline is dropped). -/
def rustLines (chars : List Char) : List (List Char) :=
  if chars.isEmpty then []
  else
    let ls := splitLinesAux chars []
    if ls.getLast? = some [] then ls.dropLast else ls

/-- `LuaValidator::get_line`. -/
def get_line (chars : List Char) (lineNum : Nat) : List Char :=
  (rustLines chars).getD (lineNum - 1) []

/-- `LuaValidator::has_return_statement`: line by line, skipping comment-only
lines and inline comment suffixes, look for `return`. -/
def has_return_statement (chars : List Char) : Bool :=
  (rustLines chars).any (fun line =>
    let t := trimChars line
    if listStartsWith ['-', '-'] t then false
    else
      let codePart :=
        match findSubIdx ['-', '-'] t with
        | some idx => t.take idx
        | none => t
      hasSubList ['r', 'e', 't', 'u', 'r', 'n'] codePart)

/-- The `ForbiddenFunction` error pushed for one pattern match at `m`
(start, length): message from the matched text with trailing `(` stripped,
line number, suggestion, ±40-char snippet. -/
def mkForbiddenError (chars : List Char) (bp : BlockedPattern) (m : Nat × Nat) :
    ValidationErrorL :=
  { error_type := .forbiddenFunction,
    message := "Forbidden function call detected: '"
      ++ String.mk (trimEndParens ((chars.drop m.1).take m.2)) ++ "'",
    line := some (line_number chars m.1),
    column := none,
    suggestion := bp.suggestion,
    code_snippet := some (extract_snippet chars m.1 40) }

/-- Step 1 of `validate`: one error per matching blocked pattern, in
pattern order. -/
def forbiddenErrorsFor (chars : List Char) : List ValidationErrorL :=
  LuaValidator.blocked_patterns.filterMap (fun bp =>
    (findPattern bp chars).map (fun m => mkForbiddenError chars bp m))

/-- The outcome of step 2 of `validate` (the external `rlua` compile plus
`parse_lua_error`/`suggest_fix` post-processing of its diagnostic text). -/
structure SyntaxInfo where
  message : String
  line : Option Nat
  suggestion : String
deriving DecidableEq, Repr

def syntaxErrorsFor (chars : List Char) : Option SyntaxInfo → List ValidationErrorL
  | none => []
  | some si =>
    [{ error_type := .syntaxError, message := si.message, line := si.line, column := none,
       suggestion := si.suggestion,
       code_snippet := si.line.map (fun l => String.mk (get_line chars l)) }]

/-- Step 3 of `validate`: warn when a nonempty script has no reachable
return statement. -/
def validateWarnings (code : String) : List ValidationWarningL :=
  if !(has_return_statement code.toList) && !(trimChars code.toList).isEmpty then
    [ValidationWarningL.missing_return]
  else []

/-- `LuaValidator::validate`. -/
def LuaValidator.validate (code : String) (syntaxErr? : Option SyntaxInfo) :
    ValidationResultL :=
  if (forbiddenErrorsFor code.toList ++ syntaxErrorsFor code.toList syntaxErr?).isEmpty then
    { valid := true, errors := [], warnings := validateWarnings code,
      available_functions := available_functions }
  else
    { valid := false,
      errors := forbiddenErrorsFor code.toList ++ syntaxErrorsFor code.toList syntaxErr?,
      warnings := validateWarnings code,
      available_functions := available_functions }

/-- C7 -- any script matching a blocked pattern validates to `valid = false`
with a `ForbiddenFunction` error carrying a line number and a code snippet
(whatever the syntax-check outcome); in particular
`validate("io.open('/etc/passwd')")` yields `valid = false`, its first
error of kind `ForbiddenFunction` with the suggestion naming the key-value
primitive `put()`, line 1, and the offending snippet. -/
theorem validate_blocked_patterns :
    (∀ (code : String) (syn : Option SyntaxInfo),
      (∃ bp ∈ LuaValidator.blocked_patterns, (findPattern bp code.toList).isSome = true) →
      (LuaValidator.validate code syn).valid = false
      ∧ ∃ e ∈ (LuaValidator.validate code syn).errors,
          e.error_type = .forbiddenFunction ∧ e.line.isSome = true
            ∧ e.code_snippet.isSome = true)
    ∧ (LuaValidator.validate "io.open('/etc/passwd')" none).valid = false
    ∧ (LuaValidator.validate "io.open('/etc/passwd')" none).errors.head?
        = some ⟨.forbiddenFunction, "Forbidden function call detected: 'io.open'",
            some 1, none, "File I/O is not allowed. Store data using put() instead.",
            some "io.open('/etc/passwd')"⟩
    ∧ hasSubStr "File I/O is not allowed. Store data using put() instead." "put()" = true := by
  refine ⟨?_, by decide, by decide, by decide⟩
  intro code syn ⟨bp, hbp, hsome⟩
  obtain ⟨m, hm⟩ := Option.isSome_iff_exists.1 hsome
  have hmem : mkForbiddenError code.toList bp m ∈ forbiddenErrorsFor code.toList := by
    unfold forbiddenErrorsFor
    exact List.mem_filterMap.2 ⟨bp, hbp, by rw [hm]; rfl⟩
  have hmemAll : mkForbiddenError code.toList bp m
      ∈ forbiddenErrorsFor code.toList ++ syntaxErrorsFor code.toList syn :=
    List.mem_append_left _ hmem
  have hne : (forbiddenErrorsFor code.toList ++ syntaxErrorsFor code.toList syn).isEmpty
      = false := by
    cases hcase : forbiddenErrorsFor code.toList ++ syntaxErrorsFor code.toList syn with
    | nil => rw [hcase] at hmemAll; cases hmemAll
    | cons a b => rfl
  constructor
  · unfold LuaValidator.validate
    rw [if_neg (by rw [hne]; exact Bool.false_ne_true)]
  · refine ⟨mkForbiddenError code.toList bp m, ?_, rfl, rfl, rfl⟩
    unfold LuaValidator.validate
    rw [if_neg (by rw [hne]; exact Bool.false_ne_true)]
    exact hmemAll

/-- Witness for C7: the scenario input matches the `io.open` call pattern. -/
theorem validate_blocked_patterns_witness :
    (LuaValidator.validate "io.open('/etc/passwd')" (some ⟨"m", none, "s"⟩)).valid = false := by
  exact (validate_blocked_patterns.1 "io.open('/etc/passwd')" (some ⟨"m", none, "s"⟩)
    ⟨BlockedPattern.mk .callPat "io.open"
      "File I/O is not allowed. Store data using put() instead.", by decide, by decide⟩).1

end Liath
